import Mathlib

/-!
Verification of the csv-converter dialect sniffer, type inferencer, format
classifier and conversion driver.  Rust strings are modelled as lists of
characters (`RStr`); the source only compares ASCII bytes, for which the
character-level view coincides with the byte-level one.  Floating-point
values are modelled as exact rationals: the sniffer's score arithmetic and
the numeric values produced by `f64` parsing are carried in `ℚ`, with the
rounding of decimal literals to binary64 abstracted away (no claim in this
development depends on a rounding boundary); the overflow of `f64` parsing
to infinity is kept, at the binary64 round-to-infinity threshold.
-/

set_option maxRecDepth 40000

namespace CsvConv

/-- Rust string slices, viewed as lists of characters. -/
abbrev RStr := List Char

/-- JSON values as produced by the converter, after `serde_json::Value`.
Numbers built from an `i64` and numbers built from a finite `f64` are kept
apart because they serialize differently; the `f64` payload is carried as
an exact rational. -/
inductive Value where
  | null : Value
  | bool : Bool → Value
  | intNum : Int → Value
  | floatNum : ℚ → Value
  | str : RStr → Value
deriving DecidableEq

/-- ASCII lowercasing of one character, after `u8::to_ascii_lowercase`. -/
def asciiLower (c : Char) : Char :=
  if 'A' ≤ c ∧ c ≤ 'Z' then Char.ofNat (c.toNat + 32) else c

/-- Case-insensitive ASCII equality, after `str::eq_ignore_ascii_case`. -/
def eqIgnoreAsciiCase (a b : RStr) : Bool :=
  decide (a.map asciiLower = b.map asciiLower)

/-- Numeric value of one decimal digit character. -/
def digitVal (c : Char) : Nat := c.toNat - '0'.toNat

/-- Value of a string of decimal digits, most significant first. -/
def decimalValue (ds : RStr) : Nat := ds.foldl (fun acc c => acc * 10 + digitVal c) 0

def i64Min : Int := -(2 ^ 63)

def i64Max : Int := 2 ^ 63 - 1

/-- Rust `i64::from_str` (`field.parse::<i64>()`): an optional `+` or `-`
sign followed by one or more ASCII digits, failing when the value falls
outside the `i64` range. -/
def parseI64 (s : RStr) : Option Int :=
  let sd : Int × RStr :=
    match s with
    | '+' :: rest => (1, rest)
    | '-' :: rest => (-1, rest)
    | rest => (1, rest)
  if sd.2.isEmpty ∨ ¬ sd.2.all Char.isDigit then none
  else
    let v : Int := sd.1 * (decimalValue sd.2 : Int)
    if i64Min ≤ v ∧ v ≤ i64Max then some v else none

/-- Result of Rust `f64` parsing: a finite value (kept as an exact
rational), a signed infinity, or NaN. -/
inductive F64 where
  | finite : ℚ → F64
  | infinite : Bool → F64
  | nan : F64
deriving DecidableEq

/-- Longest prefix of ASCII digits of a string, together with the rest. -/
def splitDigits : RStr → RStr × RStr
  | [] => ([], [])
  | c :: rest =>
    if c.isDigit then
      let p := splitDigits rest
      (c :: p.1, p.2)
    else ([], c :: rest)

/-- Mantissa-exponent part of the Rust `f64` grammar, after the optional
sign: `(Digit+ | Digit+ . Digit* | . Digit+) ((e|E) (+|-)? Digit+)?`,
consuming the whole string.  Returns the digits value `a` of the mantissa,
the number `k` of fractional digits and the signed exponent `e`; the
represented decimal value is `a / 10^k * 10^e`, kept exact. -/
def parseDecimalParts (body : RStr) : Option (Nat × Nat × Int) :=
  let ip := splitDigits body
  let fp : Bool × RStr × RStr :=
    match ip.2 with
    | '.' :: rest =>
      let q := splitDigits rest
      (true, q.1, q.2)
    | r => (false, [], r)
  if ip.1.isEmpty ∧ ¬ (fp.1 ∧ ¬ fp.2.1.isEmpty) then none
  else
    let a := decimalValue (ip.1 ++ fp.2.1)
    let k := fp.2.1.length
    match fp.2.2 with
    | [] => some (a, k, 0)
    | e :: rest =>
      if e = 'e' ∨ e = 'E' then
        let es : Int × RStr :=
          match rest with
          | '+' :: r => (1, r)
          | '-' :: r => (-1, r)
          | r => (1, r)
        if es.2.isEmpty ∨ ¬ es.2.all Char.isDigit then none
        else some (a, k, es.1 * (decimalValue es.2 : Int))
      else none

/-- Magnitude from which Rust `f64` parsing rounds a finite decimal value
to infinity: the round-to-nearest boundary `2^1024 - 2^970` above the
largest finite binary64 value, written as the natural number
`2^970 * (2^54 - 1)`. -/
def f64OverflowNat : Nat := 2 ^ 970 * (2 ^ 54 - 1)

/-- Overflow test `a / 10^k * 10^e ≥ 2^1024 - 2^970`, carried out on
integers by moving the powers of ten to whichever side keeps them
natural. -/
def overflowsF64 (a k : Nat) (e : Int) : Bool :=
  if (k : Int) ≤ e then f64OverflowNat ≤ a * 10 ^ (e - (k : Int)).toNat
  else f64OverflowNat * 10 ^ ((k : Int) - e).toNat ≤ a

/-- Rust `f64::from_str` (`field.parse::<f64>()`): an optional sign
followed by a case-insensitive `inf`, `infinity` or `nan`, or by a decimal
mantissa with optional exponent.  Finite values are kept exactly as
rationals; too-large magnitudes round to infinity. -/
def parseF64 (s : RStr) : Option F64 :=
  let sb : Bool × RStr :=
    match s with
    | '+' :: rest => (false, rest)
    | '-' :: rest => (true, rest)
    | rest => (false, rest)
  if eqIgnoreAsciiCase sb.2 ['i', 'n', 'f'] ∨
      eqIgnoreAsciiCase sb.2 ['i', 'n', 'f', 'i', 'n', 'i', 't', 'y'] then
    some (F64.infinite sb.1)
  else if eqIgnoreAsciiCase sb.2 ['n', 'a', 'n'] then some F64.nan
  else
    match parseDecimalParts sb.2 with
    | none => none
    | some (a, k, e) =>
      if overflowsF64 a k e then some (F64.infinite sb.1)
      else
        let m : ℚ := (a : ℚ) / (10 : ℚ) ^ k * (10 : ℚ) ^ e
        some (F64.finite (if sb.1 then -m else m))

/-- Leading-zero test of the smart-inference branch:
`field.starts_with('0') && field.len() > 1 && !field.starts_with("0.")`.
The source's `len()` counts bytes while `List.length` counts characters;
on strings whose first character is `0` (the only ones for which the other
conjuncts are consulted) the two agree on the comparison with 1. -/
def hasLeadingZero (field : RStr) : Bool :=
  decide ((['0'] <+: field) ∧ 1 < field.length ∧ ¬ (['0', '.'] <+: field))

/-- Smart-inference branch of `convert_field_value` (the final `else`
block of `src/value_conversion.rs`). -/
def smartValue (field : RStr) : Value :=
  if field.isEmpty then Value.null
  else if eqIgnoreAsciiCase field ['t', 'r', 'u', 'e'] then Value.bool true
  else if eqIgnoreAsciiCase field ['f', 'a', 'l', 's', 'e'] then Value.bool false
  else if ¬ hasLeadingZero field then
    match parseI64 field with
    | some n => Value.intNum n
    | none =>
      match parseF64 field with
      | some (F64.finite q) => Value.floatNum q
      | some _ => Value.str field
      | none => Value.str field
  else Value.str field

/-- Type inference for one field, after `convert_field_value` in
`src/value_conversion.rs` (the identical copy lives in `src/lib.rs`). -/
def convert_field_value (field hname : RStr) (noConv : Bool) (stringFields : List RStr) :
    Value :=
  if noConv then
    if field.isEmpty then Value.null else Value.str field
  else if stringFields.any (fun f => decide (f = hname)) then
    if field.isEmpty then Value.null else Value.str field
  else smartValue field

/-- Base-10 integer parse exactly as claim C6 words it: an optional
leading minus sign (only) followed by digits, no decimal point, within the
`i64` range. -/
def parseI64MinusOnly (s : RStr) : Option Int :=
  let sd : Int × RStr :=
    match s with
    | '-' :: rest => (-1, rest)
    | rest => (1, rest)
  if sd.2.isEmpty ∨ ¬ sd.2.all Char.isDigit then none
  else
    let v : Int := sd.1 * (decimalValue sd.2 : Int)
    if i64Min ≤ v ∧ v ≤ i64Max then some v else none

/-- Smart inference as claim C6 words it: empty text is null, a
case-insensitive `true`/`false` is a boolean, otherwise a text without a
leading zero is parsed first as a base-10 integer (optional leading `-`,
no decimal point), else as a floating-point number unless the parsed
value is not a finite JSON number, and any text with no numeric parse is
returned verbatim as a string (texts with a leading zero stay strings, per
the leading-zero rule of the spec). -/
def claimSmart (field : RStr) : Value :=
  if field.isEmpty then Value.null
  else if eqIgnoreAsciiCase field ['t', 'r', 'u', 'e'] then Value.bool true
  else if eqIgnoreAsciiCase field ['f', 'a', 'l', 's', 'e'] then Value.bool false
  else if ¬ hasLeadingZero field then
    match parseI64MinusOnly field with
    | some n => Value.intNum n
    | none =>
      match parseF64 field with
      | some (F64.finite q) => Value.floatNum q
      | some _ => Value.str field
      | none => Value.str field
  else Value.str field

/-- Smart inference as claim C6 reads once its integer grammar is amended
to allow an optional leading `+` as well as `-` (which is what `parse::<i64>`
accepts); this is the only change the counterexample forces. -/
def amendedSmart (field : RStr) : Value :=
  if field.isEmpty then Value.null
  else if eqIgnoreAsciiCase field ['t', 'r', 'u', 'e'] then Value.bool true
  else if eqIgnoreAsciiCase field ['f', 'a', 'l', 's', 'e'] then Value.bool false
  else if ¬ hasLeadingZero field then
    match parseI64 field with
    | some n => Value.intNum n
    | none =>
      match parseF64 field with
      | some (F64.finite q) => Value.floatNum q
      | some _ => Value.str field
      | none => Value.str field
  else Value.str field

/-- Line terminators, after `csv::Terminator` (only `CRLF` is ever produced
by the sniffer; `LF` is listed for completeness of the data model). -/
inductive Terminator where
  | CRLF : Terminator
  | LF : Terminator
deriving DecidableEq

/-- CSV dialect produced by the sniffer: the `(delimiter, quote, escape,
terminator)` tuple returned by `detect_csv_format`. -/
structure Dialect where
  delimiter : Char
  quote : Char
  escape : Option Char
  terminator : Terminator
deriving DecidableEq

/-- Candidate delimiters, in the fixed order tried by both sniffers. -/
def possibleDelimiters : List Char := [',', ';', '\t', '|']

/-- Per-line occurrence counts of a candidate delimiter over the non-empty
sampled lines, in sample order (the `counts` vector of
`src/format_detection.rs`). -/
def delimCounts (delim : Char) (lines : List RStr) : List Nat :=
  (lines.filter (fun l => ¬ l.isEmpty)).map (fun l => l.count delim)

/-- Mean of the per-line occurrence counts (`avg_count`), as an exact
rational. -/
def avgCount (cs : List Nat) : ℚ := (cs.sum : ℚ) / (cs.length : ℚ)

/-- Largest frequency among the occurrence-count values: the
`count_freq.values().max().unwrap_or(&0)` of the source.  Taking the
maximum of each element's frequency ranges over exactly the frequencies of
the distinct values. -/
def mostCommonFreq (cs : List Nat) : Nat :=
  (cs.map (fun v => cs.count v)).foldr max 0

/-- Fraction of sampled non-empty lines sharing the single most frequent
occurrence-count value (`consistency_ratio`). -/
def consistencyRatio (cs : List Nat) : ℚ := (mostCommonFreq cs : ℚ) / (cs.length : ℚ)

/-- Delimiter score `avg_count * (0.7 + 0.3 * consistency_ratio)`, carried
in exact rational arithmetic. -/
def delimScore (delim : Char) (lines : List RStr) : ℚ :=
  avgCount (delimCounts delim lines) *
    (7 / 10 + 3 / 10 * consistencyRatio (delimCounts delim lines))

/-- One step of scanning a scored candidate list for its first maximum:
the current best is replaced only by a strictly better candidate. -/
def betterOf {β : Type} [LinearOrder β] (best q : Char × β) : Char × β :=
  if best.2 < q.2 then q else best

/-- First element of the scored candidate list sorted by descending score
with a stable sort, i.e. the earliest candidate attaining the maximal
score — the `sort_by(|a, b| b.cmp(a))` followed by `.first()` of the
source — with the source's `unwrap_or(b',')` default for an empty list. -/
def pickFirstMax {β : Type} [LinearOrder β] : List (Char × β) → Char
  | [] => ','
  | p :: rest => (rest.foldl betterOf p).1

/-- Substring containment test, after Rust `str::contains` with a literal
pattern. -/
def containsSeq (pat line : RStr) : Bool := decide (pat <:+: line)

/-- Presence of a literal backslash-quote in some sampled line. -/
def hasBackslashEscape (lines : List RStr) : Bool :=
  lines.any (fun l => containsSeq ['\\', '"'] l)

/-- Presence of a literal doubled double quote in some sampled line. -/
def hasDoubleQuoteEscape (lines : List RStr) : Bool :=
  lines.any (fun l => containsSeq ['"', '"'] l)

/-- Escape-convention resolution shared verbatim by both sniffer
implementations. -/
def detectEscape (lines : List RStr) : Option Char :=
  if hasBackslashEscape lines ∧ ¬ hasDoubleQuoteEscape lines then some '\\' else none

/-- Candidates that are not discarded by the `continue` of the scoring
loop: those whose `counts` vector is neither empty nor all zero. -/
def codeSurvivors (lines : List RStr) : List Char :=
  possibleDelimiters.filter (fun d =>
    ¬ ((delimCounts d lines).isEmpty ∨ (delimCounts d lines).all (fun c => c = 0)))

/-- The `delimiter_scores` vector: every surviving candidate paired with
its score, in candidate order. -/
def scoredCandidates (lines : List RStr) : List (Char × ℚ) :=
  (codeSurvivors lines).map (fun d => (d, delimScore d lines))

/-- Dialect sniffer of `src/format_detection.rs` (`detect_csv_format`),
modelled on the list of lines the reader yields for the file, each without
its terminator; the 250-line sampling cap is the source's loop bound. -/
def detect_csv_format (fileLines : List RStr) : Dialect :=
  let lines := fileLines.take 250
  if lines.isEmpty then ⟨',', '"', none, Terminator.CRLF⟩
  else ⟨pickFirstMax (scoredCandidates lines), '"', detectEscape lines, Terminator.CRLF⟩

/-- Dialect sniffer of `src/lib.rs` (`detect_csv_format`): a candidate is
kept with the occurrence count of the first sampled line when that count
is positive and every later non-empty sampled line repeats it exactly. -/
def detect_csv_format_lib (fileLines : List RStr) : Dialect :=
  let lines := fileLines.take 250
  if lines.isEmpty then ⟨',', '"', none, Terminator.CRLF⟩
  else
    let scores := possibleDelimiters.filterMap (fun d =>
      match lines.head? with
      | none => none
      | some first =>
        let c := first.count d
        if 0 < c ∧ ((lines.drop 1).all (fun l => l.count d = c ∨ l.isEmpty)) then
          some (d, c)
        else none)
    ⟨pickFirstMax scores, '"', detectEscape lines, Terminator.CRLF⟩

/-- File formats, after the `FileFormat` enum (`Csv` is the spec's
DelimitedText, `Xlsx` its Spreadsheet). -/
inductive FileFormat where
  | Csv : FileFormat
  | Xlsx : FileFormat
deriving DecidableEq

/-- File-system view of one path as consumed by `detect_file_format`:
the path's extension as `Path::extension` returns it (`none` when absent),
and the file's bytes when the file can be opened (`none` when opening
fails). -/
structure FsFile where
  ext : Option RStr
  content : Option (List Nat)

def spreadsheetExts : List RStr :=
  [['x', 'l', 's', 'x'], ['x', 'l', 's', 'm'], ['x', 'l', 's', 'b'], ['x', 'l', 's']]

def textExts : List RStr := [['c', 's', 'v'], ['t', 's', 'v'], ['t', 'x', 't']]

/-- Magic-byte fallback of `detect_file_format`: opening the file may
fail (propagated as an error); `read_exact` of the 4-byte magic succeeds
exactly when the file holds at least 4 bytes, and only the first two bytes
are compared against the ZIP and compound-document magics. -/
def sniffMagic (f : FsFile) : Except String FileFormat :=
  match f.content with
  | none => Except.error "Failed to open file for format detection"
  | some bytes =>
    if 4 ≤ bytes.length ∧ (bytes.take 2 = [0x50, 0x4B] ∨ bytes.take 2 = [0xD0, 0xCF]) then
      Except.ok FileFormat.Xlsx
    else Except.ok FileFormat.Csv

/-- Format classifier of `src/format_detection.rs` (`detect_file_format`).
The source lowercases the extension with Unicode `to_lowercase`; on the
characters that can reach one of the recognized all-ASCII extensions this
agrees with ASCII lowercasing, which is what is modelled. -/
def detect_file_format (f : FsFile) : Except String FileFormat :=
  match f.ext with
  | some e =>
    let el := e.map asciiLower
    if el ∈ spreadsheetExts then Except.ok FileFormat.Xlsx
    else if el ∈ textExts then Except.ok FileFormat.Csv
    else sniffMagic f
  | none => sniffMagic f

/-- Decimal digit characters of a natural number. -/
def natChars (n : Nat) : RStr := (Nat.repr n).toList

/-- Synthesized key `column_<i>` for a field beyond the header row. -/
def columnKey (i : Nat) : RStr :=
  ['c', 'o', 'l', 'u', 'm', 'n', '_'] ++ natChars i

/-- Key chosen for field index `i`: the header at `i` when it exists,
otherwise the synthesized `column_<i>` (the `headers.get(i)` fallback of
the conversion driver). -/
def headerNameAt (headers : List RStr) (i : Nat) : RStr :=
  match headers.get? i with
  | some h => h
  | none => columnKey i

/-- Modelled from the spec: insertion into the JSON object map used by the
conversion driver.  `Cargo.toml`, which fixes whether `serde_json`'s `Map`
preserves insertion order, is not among the sources; the spec states that
column order is preserved as object key insertion order, so the map is
modelled as an insertion-ordered association list whose `insert` replaces
the value of an existing key in place and appends a fresh key at the
end. -/
def mapInsert (m : List (RStr × Value)) (k : RStr) (v : Value) : List (RStr × Value) :=
  if m.any (fun p => decide (p.1 = k)) then
    m.map (fun p => if p.1 = k then (k, v) else p)
  else m ++ [(k, v)]

/-- Record loop body of `convert_to_ndjson` in `src/parsers/csv.rs`:
fields are visited left to right with their index, each converted value
inserted under its key. -/
def recordToJsonAux (headers : List RStr) (noConv : Bool) (stringFields : List RStr) :
    List RStr → Nat → List (RStr × Value) → List (RStr × Value)
  | [], _, m => m
  | field :: rest, i, m =>
    recordToJsonAux headers noConv stringFields rest (i + 1)
      (mapInsert m (headerNameAt headers i)
        (convert_field_value field (headerNameAt headers i) noConv stringFields))

/-- JSON object built by the conversion driver for one data record. -/
def recordToJson (headers record : List RStr) (noConv : Bool) (stringFields : List RStr) :
    List (RStr × Value) :=
  recordToJsonAux headers noConv stringFields record 0 []

/-- Keys the driver uses for field indices `i, i+1, ..., i+len-1`. -/
def rowKeys (headers : List RStr) : Nat → Nat → List RStr
  | _, 0 => []
  | i, len + 1 => headerNameAt headers i :: rowKeys headers (i + 1) len

/-- Pairs the driver produces for the suffix of a record starting at field
index `i`, in field order. -/
def rowPairs (headers : List RStr) (noConv : Bool) (stringFields : List RStr) :
    List RStr → Nat → List (RStr × Value)
  | [], _ => []
  | field :: rest, i =>
    (headerNameAt headers i, convert_field_value field (headerNameAt headers i) noConv stringFields)
      :: rowPairs headers noConv stringFields rest (i + 1)

/-- Candidates claim C1 calls surviving: those with a nonzero occurrence
count on at least one sampled non-empty line (the complement of
"occurrence count is zero on every sampled non-empty line"). -/
def survivingDelims (lines : List RStr) : List Char :=
  possibleDelimiters.filter (fun d =>
    (lines.filter (fun l => ¬ l.isEmpty)).any (fun l => ¬ l.count d = 0))

/-- Delimiter-selection property asserted by claim C1 for one input: every
discarded candidate had zero occurrences on every sampled non-empty line,
and among the surviving candidates the one with the highest
`average_count * (0.7 + 0.3 * consistency_ratio)` score is selected, ties
going to the earliest in the fixed candidate order, with `,` as the
default when no candidate survives. -/
def delimiterClaimHolds (fileLines : List RStr) : Prop :=
  (survivingDelims (fileLines.take 250) = [] →
    (detect_csv_format fileLines).delimiter = ',') ∧
  (survivingDelims (fileLines.take 250) ≠ [] →
    ∃ pre post,
      survivingDelims (fileLines.take 250) =
        pre ++ (detect_csv_format fileLines).delimiter :: post ∧
      (∀ e ∈ pre,
        delimScore e (fileLines.take 250) <
          delimScore (detect_csv_format fileLines).delimiter (fileLines.take 250)) ∧
      (∀ e ∈ survivingDelims (fileLines.take 250),
        delimScore e (fileLines.take 250) ≤
          delimScore (detect_csv_format fileLines).delimiter (fileLines.take 250)))

/-- Two-line input on which the two sniffer implementations disagree:
`a,b;c` then `a;b;c`. -/
def mixedDelimInput : List RStr :=
  [['a', ',', 'b', ';', 'c'], ['a', ';', 'b', ';', 'c']]

lemma any_not_mem_eq_false {sf : List RStr} {hname : RStr} (hsf : hname ∉ sf) :
    sf.any (fun f => decide (f = hname)) = false := by
  simp only [List.any_eq_false, decide_eq_true_eq]
  intro x hx he
  exact hsf (he ▸ hx)

lemma convert_not_string_field (field hname : RStr) (sf : List RStr) (hsf : hname ∉ sf) :
    convert_field_value field hname false sf = smartValue field := by
  simp [convert_field_value, any_not_mem_eq_false hsf]

lemma detect_csv_format_quote_escape_term (fileLines : List RStr) :
    (detect_csv_format fileLines).quote = '"' ∧
    (detect_csv_format fileLines).escape = detectEscape (fileLines.take 250) ∧
    (detect_csv_format fileLines).terminator = Terminator.CRLF := by
  unfold detect_csv_format
  cases h : (fileLines.take 250).isEmpty
  · simp [h]
  · rw [List.isEmpty_iff] at h
    rw [h]
    refine ⟨rfl, ?_, rfl⟩
    rfl

lemma detect_csv_format_lib_quote_escape_term (fileLines : List RStr) :
    (detect_csv_format_lib fileLines).quote = '"' ∧
    (detect_csv_format_lib fileLines).escape = detectEscape (fileLines.take 250) ∧
    (detect_csv_format_lib fileLines).terminator = Terminator.CRLF := by
  unfold detect_csv_format_lib
  cases h : (fileLines.take 250).isEmpty
  · simp [h]
  · rw [List.isEmpty_iff] at h
    rw [h]
    refine ⟨rfl, ?_, rfl⟩
    rfl

lemma hasBackslashEscape_iff (lines : List RStr) :
    hasBackslashEscape lines = true ↔ ∃ l ∈ lines, ['\\', '"'] <:+: l := by
  simp [hasBackslashEscape, containsSeq]

lemma hasDoubleQuoteEscape_iff (lines : List RStr) :
    hasDoubleQuoteEscape lines = true ↔ ∃ l ∈ lines, ['"', '"'] <:+: l := by
  simp [hasDoubleQuoteEscape, containsSeq]

lemma detectEscape_eq_some_iff (lines : List RStr) :
    detectEscape lines = some '\\' ↔
      ((∃ l ∈ lines, ['\\', '"'] <:+: l) ∧ ∀ l ∈ lines, ¬ (['"', '"'] <:+: l)) := by
  unfold detectEscape
  split
  · next hcond =>
    constructor
    · intro _
      refine ⟨(hasBackslashEscape_iff lines).mp hcond.1, fun l hl hc => ?_⟩
      exact hcond.2 ((hasDoubleQuoteEscape_iff lines).mpr ⟨l, hl, hc⟩)
    · intro _
      rfl
  · next hcond =>
    constructor
    · intro h
      exact Option.noConfusion h
    · rintro ⟨h1, h2⟩
      refine absurd ⟨(hasBackslashEscape_iff lines).mpr h1, fun hdt => ?_⟩ hcond
      obtain ⟨l, hl, hc⟩ := (hasDoubleQuoteEscape_iff lines).mp hdt
      exact h2 l hl hc

/-- Claim C3: the sniffer returns backslash as the escape character
exactly when some sampled line (among the first 250) contains the literal
two-character sequence backslash-quote and no sampled line contains a
doubled double quote; in every other case it returns no escape character
(RFC 4180 double-quote escaping). -/
theorem escape_convention_claim (fileLines : List RStr) :
    ((detect_csv_format fileLines).escape = some '\\' ↔
      ((∃ l ∈ fileLines.take 250, ['\\', '"'] <:+: l) ∧
        ∀ l ∈ fileLines.take 250, ¬ (['"', '"'] <:+: l))) ∧
    ((detect_csv_format fileLines).escape = none ↔
      ¬ ((∃ l ∈ fileLines.take 250, ['\\', '"'] <:+: l) ∧
        ∀ l ∈ fileLines.take 250, ¬ (['"', '"'] <:+: l))) := by
  obtain ⟨-, he, -⟩ := detect_csv_format_quote_escape_term fileLines
  rw [he]
  refine ⟨detectEscape_eq_some_iff _, ?_⟩
  rw [← detectEscape_eq_some_iff (fileLines.take 250)]
  unfold detectEscape
  split
  · simp
  · simp

/-- Claim C4: the sniffer maps an empty input file (zero lines read) to
exactly the default dialect: comma delimiter, double-quote quote, no
escape character, CRLF terminator — in both of its implementations. -/
theorem empty_input_default_dialect :
    detect_csv_format [] = ⟨',', '"', none, Terminator.CRLF⟩ ∧
    detect_csv_format_lib [] = ⟨',', '"', none, Terminator.CRLF⟩ := by
  exact ⟨rfl, rfl⟩

/-- Claim C7: with `no_type_conversion` set the converter returns null for
empty text and the verbatim string otherwise for every field and column
(first part — since it holds for every `string_fields` list, the flag
takes precedence over the `string_fields` override); and with the flag
unset, a column listed in `string_fields` gets the same null/verbatim
treatment, overriding smart inference (second part). -/
theorem conversion_override_claim (field hname : RStr) (sf : List RStr) :
    (convert_field_value field hname true sf =
      (if field.isEmpty then Value.null else Value.str field)) ∧
    (hname ∈ sf → convert_field_value field hname false sf =
      (if field.isEmpty then Value.null else Value.str field)) := by
  constructor
  · simp [convert_field_value]
  · intro hmem
    have hany : sf.any (fun f => decide (f = hname)) = true := by
      simp only [List.any_eq_true, decide_eq_true_eq]
      exact ⟨hname, hmem, rfl⟩
    simp [convert_field_value, hany]

/-- Witness for claim C7 at field `42`, column `z`, with `z` forced to
string. -/
theorem conversion_override_claim_w :
    convert_field_value ['4', '2'] ['z'] false [['z']] =
      (if (['4', '2'] : RStr).isEmpty then Value.null else Value.str ['4', '2']) :=
  (conversion_override_claim ['4', '2'] ['z'] [['z']]).2 (by decide)

lemma eqIgnoreAsciiCase_zero_ne_bool (rest : RStr) :
    eqIgnoreAsciiCase ('0' :: rest) ['t', 'r', 'u', 'e'] = false ∧
    eqIgnoreAsciiCase ('0' :: rest) ['f', 'a', 'l', 's', 'e'] = false := by
  constructor <;>
  · rw [eqIgnoreAsciiCase, decide_eq_false_iff_not]
    intro hc
    simp only [List.map_cons, List.map_nil] at hc
    injection hc with h1 _
    exact absurd h1 (by decide)

/-- Claim C5: under smart inference (conversion enabled, column not in
`string_fields`) every field text that starts with `0`, has length greater
than 1 and does not start with `0.` is returned verbatim as a string,
never as a number; while the text `0.5` — the `0.` carve-out — becomes the
float number one half. -/
theorem leading_zero_claim (field hname : RStr) (sf : List RStr)
    (hsf : hname ∉ sf) (h0 : ∃ rest, field = '0' :: rest)
    (hlen : 1 < field.length) (hdot : ¬ (['0', '.'] <+: field)) :
    convert_field_value field hname false sf = Value.str field ∧
    convert_field_value ['0', '.', '5'] hname false sf = Value.floatNum (1 / 2) := by
  constructor
  · rw [convert_not_string_field _ _ _ hsf]
    obtain ⟨rest, rfl⟩ := h0
    unfold smartValue
    rw [(eqIgnoreAsciiCase_zero_ne_bool rest).1, (eqIgnoreAsciiCase_zero_ne_bool rest).2]
    have hlz : hasLeadingZero ('0' :: rest) = true := by
      unfold hasLeadingZero
      rw [decide_eq_true_eq]
      exact ⟨⟨rest, rfl⟩, hlen, hdot⟩
    simp [hlz]
  · rw [convert_not_string_field _ _ _ hsf]
    show Value.floatNum _ = Value.floatNum (1 / 2)
    rw [Value.floatNum.injEq]
    simp [show splitDigits ['0', '.', '5'] = (['0'], '.' :: ['5']) from by decide,
      show splitDigits ['5'] = (['5'], ([] : RStr)) from by decide, decimalValue, digitVal]
    norm_num

/-- Witness for claim C5 at the field `02134` (kept verbatim as a string)
and the field `0.5` (turned into the float one half). -/
theorem leading_zero_claim_w :
    convert_field_value ['0', '2', '1', '3', '4'] ['z'] false [] =
      Value.str ['0', '2', '1', '3', '4'] ∧
    convert_field_value ['0', '.', '5'] ['z'] false [] = Value.floatNum (1 / 2) :=
  leading_zero_claim ['0', '2', '1', '3', '4'] ['z'] [] (by decide)
    ⟨['2', '1', '3', '4'], rfl⟩ (by decide) (by decide)

/-- Counterexample to claim C6 as stated: on the field text `+5` the code
returns the integer number 5 (Rust's integer parse accepts an optional
leading `+`), while the claim's integer grammar — optional leading `-`
only, no decimal point — rejects the text, sending it to the float branch,
which yields the float number 5. -/
theorem smart_inference_claim_cex :
    convert_field_value ['+', '5'] ['z'] false [] = Value.intNum 5 ∧
    claimSmart ['+', '5'] = Value.floatNum 5 ∧
    convert_field_value ['+', '5'] ['z'] false [] ≠ claimSmart ['+', '5'] := by
  refine ⟨by decide, ?_, by decide⟩
  show Value.floatNum _ = Value.floatNum 5
  rw [Value.floatNum.injEq]
  simp [show splitDigits ['5'] = (['5'], ([] : RStr)) from by decide, decimalValue, digitVal]

/-- Claim C6 amended (the integer grammar allows an optional leading `+`
as well as `-`): under smart inference the converter behaves exactly as
the claim's resolution order describes — empty text to null, a
case-insensitive `true`/`false` to a boolean, then for texts without a
leading zero an integer parse first, a float parse next (falling back to
string for non-finite values), and a verbatim string when nothing
parses. -/
theorem smart_inference_amended (field hname : RStr) (sf : List RStr) (hsf : hname ∉ sf) :
    convert_field_value field hname false sf = amendedSmart field := by
  rw [convert_not_string_field _ _ _ hsf]
  rfl

/-- Witness for the amended claim C6 at the field `+5`, column `z`, no
forced string columns. -/
theorem smart_inference_amended_w :
    convert_field_value ['+', '5'] ['z'] false [] = amendedSmart ['+', '5'] :=
  smart_inference_amended ['+', '5'] ['z'] [] (by decide)

/-- Counterexample to claim C2: on the two-line input `a,b;c` / `a;b;c`
the scoring sniffer of `src/format_detection.rs` selects `;` while the
first-line-consistency sniffer of `src/lib.rs` discards every candidate
(no count is repeated on the second line) and defaults to `,`. -/
theorem sniffer_implementations_differ :
    (detect_csv_format mixedDelimInput).delimiter = ';' ∧
    (detect_csv_format_lib mixedDelimInput).delimiter = ',' ∧
    detect_csv_format mixedDelimInput ≠ detect_csv_format_lib mixedDelimInput := by
  have hlt : delimScore ',' (mixedDelimInput.take 250) <
      delimScore ';' (mixedDelimInput.take 250) := by
    unfold delimScore
    rw [show delimCounts ',' (mixedDelimInput.take 250) = [1, 0] from by decide,
      show delimCounts ';' (mixedDelimInput.take 250) = [1, 2] from by decide]
    unfold avgCount consistencyRatio
    rw [show mostCommonFreq [1, 0] = 1 from by decide,
      show mostCommonFreq [1, 2] = 1 from by decide]
    norm_num
  have h1 : (detect_csv_format mixedDelimInput).delimiter = ';' := by
    show pickFirstMax (scoredCandidates (mixedDelimInput.take 250)) = ';'
    have hsc : scoredCandidates (mixedDelimInput.take 250) =
        [(',', delimScore ',' (mixedDelimInput.take 250)),
          (';', delimScore ';' (mixedDelimInput.take 250))] := by
      unfold scoredCandidates
      rw [show codeSurvivors (mixedDelimInput.take 250) = [',', ';'] from by decide]
      rfl
    rw [hsc]
    show (betterOf (',', delimScore ',' (mixedDelimInput.take 250))
        (';', delimScore ';' (mixedDelimInput.take 250))).1 = ';'
    simp [betterOf, hlt]
  have h2 : (detect_csv_format_lib mixedDelimInput).delimiter = ',' := by decide
  refine ⟨h1, h2, fun hEq => ?_⟩
  rw [hEq, h2] at h1
  exact absurd h1 (by decide)

/-- Claim C2 amended: the two sniffer implementations always return the
same quote, escape and terminator components; their selected delimiters
can differ. -/
theorem sniffer_implementations_agree_qet (fileLines : List RStr) :
    (detect_csv_format fileLines).quote = (detect_csv_format_lib fileLines).quote ∧
    (detect_csv_format fileLines).escape = (detect_csv_format_lib fileLines).escape ∧
    (detect_csv_format fileLines).terminator =
      (detect_csv_format_lib fileLines).terminator := by
  obtain ⟨q1, e1, t1⟩ := detect_csv_format_quote_escape_term fileLines
  obtain ⟨q2, e2, t2⟩ := detect_csv_format_lib_quote_escape_term fileLines
  exact ⟨q1.trans q2.symm, e1.trans e2.symm, t1.trans t2.symm⟩

lemma detect_file_format_fallback (f : FsFile)
    (hunrec : ∀ e, f.ext = some e →
      e.map asciiLower ∉ spreadsheetExts ∧ e.map asciiLower ∉ textExts) :
    detect_file_format f = sniffMagic f := by
  unfold detect_file_format
  cases hext : f.ext with
  | none => rfl
  | some e =>
    obtain ⟨h1, h2⟩ := hunrec e hext
    simp [h1, h2]

/-- Claim C8: the format classifier returns Spreadsheet (`Xlsx`) when the
case-insensitively compared extension is a recognized spreadsheet
extension and DelimitedText (`Csv`) when it is a recognized text
extension; with the extension absent or unrecognized it reads the first
four bytes and returns Spreadsheet when they open with the ZIP magic
`0x50 0x4B` or the compound-document magic `0xD0 0xCF`, otherwise
defaulting to DelimitedText; and when the file cannot be opened in that
fallback it propagates an I/O error instead of defaulting. -/
theorem file_format_claim (f : FsFile) :
    (∀ e, f.ext = some e → e.map asciiLower ∈ spreadsheetExts →
      detect_file_format f = Except.ok FileFormat.Xlsx) ∧
    (∀ e, f.ext = some e → e.map asciiLower ∈ textExts →
      detect_file_format f = Except.ok FileFormat.Csv) ∧
    ((∀ e, f.ext = some e →
        e.map asciiLower ∉ spreadsheetExts ∧ e.map asciiLower ∉ textExts) →
      (∀ bytes, f.content = some bytes →
        ((4 ≤ bytes.length ∧
            (bytes.take 2 = [0x50, 0x4B] ∨ bytes.take 2 = [0xD0, 0xCF])) →
          detect_file_format f = Except.ok FileFormat.Xlsx) ∧
        (¬ (4 ≤ bytes.length ∧
            (bytes.take 2 = [0x50, 0x4B] ∨ bytes.take 2 = [0xD0, 0xCF])) →
          detect_file_format f = Except.ok FileFormat.Csv)) ∧
      (f.content = none →
        detect_file_format f =
          Except.error "Failed to open file for format detection")) := by
  refine ⟨?_, ?_, ?_⟩
  · intro e he hmem
    unfold detect_file_format
    rw [he]
    simp [hmem]
  · intro e he hmem
    have hnot : e.map asciiLower ∉ spreadsheetExts := by
      simp only [textExts, List.mem_cons, List.not_mem_nil, or_false] at hmem
      rcases hmem with h | h | h <;> rw [h] <;> decide
    unfold detect_file_format
    rw [he]
    simp [hmem, hnot]
  · intro hunrec
    refine ⟨fun bytes hby => ⟨fun hmag => ?_, fun hmag => ?_⟩, fun hnone => ?_⟩
    · rw [detect_file_format_fallback f hunrec]
      simp only [sniffMagic, hby]
      rw [if_pos hmag]
    · rw [detect_file_format_fallback f hunrec]
      simp only [sniffMagic, hby]
      rw [if_neg hmag]
    · rw [detect_file_format_fallback f hunrec]
      simp only [sniffMagic, hnone]

/-- Witness for claim C8: a file with no extension whose content opens
with the ZIP magic is classified as a spreadsheet. -/
theorem file_format_claim_w :
    detect_file_format ⟨none, some [0x50, 0x4B, 3, 4]⟩ = Except.ok FileFormat.Xlsx :=
  (((file_format_claim ⟨none, some [0x50, 0x4B, 3, 4]⟩).2.2
      (fun _ he => Option.noConfusion he)).1 [0x50, 0x4B, 3, 4] rfl).1 (by decide)

lemma foldl_betterOf_spec {β : Type} [LinearOrder β] (l : List (Char × β)) (p : Char × β) :
    ∃ pre post, p :: l = pre ++ (l.foldl betterOf p) :: post ∧
      (∀ q ∈ pre, q.2 < (l.foldl betterOf p).2) ∧
      (∀ q ∈ p :: l, q.2 ≤ (l.foldl betterOf p).2) := by
  induction l generalizing p with
  | nil =>
    refine ⟨[], [], rfl, by simp, ?_⟩
    intro q hq
    rw [List.mem_singleton] at hq
    rw [hq]
    exact le_refl p.2
  | cons q rest ih =>
    rw [List.foldl_cons]
    by_cases hlt : p.2 < q.2
    · have hb : betterOf p q = q := by
        unfold betterOf
        rw [if_pos hlt]
      rw [hb]
      obtain ⟨pre, post, hsplit, hpre, hall⟩ := ih q
      have hqle : q.2 ≤ (rest.foldl betterOf q).2 := hall q (List.mem_cons_self q rest)
      refine ⟨p :: pre, post, ?_, ?_, ?_⟩
      · rw [List.cons_append, ← hsplit]
      · intro x hx
        rcases List.mem_cons.mp hx with hx' | hx'
        · rw [hx']
          exact lt_of_lt_of_le hlt hqle
        · exact hpre x hx'
      · intro x hx
        rcases List.mem_cons.mp hx with hx' | hx'
        · rw [hx']
          exact le_of_lt (lt_of_lt_of_le hlt hqle)
        · exact hall x hx'
    · have hb : betterOf p q = p := by
        unfold betterOf
        rw [if_neg hlt]
      rw [hb]
      obtain ⟨pre, post, hsplit, hpre, hall⟩ := ih p
      have hqle : q.2 ≤ p.2 := le_of_not_lt hlt
      have hple : p.2 ≤ (rest.foldl betterOf p).2 := hall p (List.mem_cons_self p rest)
      cases pre with
      | nil =>
        rw [List.nil_append] at hsplit
        injection hsplit with h1 h2
        refine ⟨[], q :: post, ?_, by simp, ?_⟩
        · rw [List.nil_append, ← h1, ← h2]
        · intro x hx
          rcases List.mem_cons.mp hx with hx' | hx'
          · rw [hx']
            exact hple
          rcases List.mem_cons.mp hx' with hx'' | hx''
          · rw [hx'']
            exact le_trans hqle hple
          · exact hall x (List.mem_cons_of_mem p hx'')
      | cons y pre' =>
        rw [List.cons_append] at hsplit
        injection hsplit with h1 h2
        have hyin : p.2 < (rest.foldl betterOf p).2 := by
          have hy := hpre y (List.mem_cons_self y pre')
          rw [← h1] at hy
          exact hy
        refine ⟨p :: q :: pre', post, ?_, ?_, ?_⟩
        · rw [List.cons_append, List.cons_append, ← h2]
        · intro x hx
          rcases List.mem_cons.mp hx with hx' | hx'
          · rw [hx']
            exact hyin
          rcases List.mem_cons.mp hx' with hx'' | hx''
          · rw [hx'']
            exact lt_of_le_of_lt hqle hyin
          · exact hpre x (List.mem_cons_of_mem y hx'')
        · intro x hx
          rcases List.mem_cons.mp hx with hx' | hx'
          · rw [hx']
            exact hple
          rcases List.mem_cons.mp hx' with hx'' | hx''
          · rw [hx'']
            exact le_trans hqle hple
          · exact hall x (List.mem_cons_of_mem p hx'')

lemma map_eq_append_cons {α β : Type} (f : α → β) :
    ∀ (l : List α) (s1 : List β) (b : β) (s2 : List β),
      l.map f = s1 ++ b :: s2 →
      ∃ t1 a t2, l = t1 ++ a :: t2 ∧ t1.map f = s1 ∧ f a = b ∧ t2.map f = s2
  | [], s1, b, s2, h => by
    rw [List.map_nil] at h
    exact absurd h.symm (List.append_ne_nil_of_right_ne_nil s1 (List.cons_ne_nil b s2))
  | a :: l, [], b, s2, h => by
    rw [List.map_cons, List.nil_append] at h
    injection h with h1 h2
    exact ⟨[], a, l, rfl, rfl, h1, h2⟩
  | a :: l, c :: s1, b, s2, h => by
    rw [List.map_cons, List.cons_append] at h
    injection h with h1 h2
    obtain ⟨t1, x, t2, hl, hm1, hfb, hm2⟩ := map_eq_append_cons f l s1 b s2 h2
    refine ⟨a :: t1, x, t2, ?_, ?_, hfb, hm2⟩
    · rw [hl, List.cons_append]
    · rw [List.map_cons, hm1, h1]

lemma codeSurvivors_eq_surviving (lines : List RStr) :
    codeSurvivors lines = survivingDelims lines := by
  unfold codeSurvivors survivingDelims
  refine List.filter_congr (fun d _ => ?_)
  rw [Bool.eq_iff_iff]
  rw [delimCounts]
  simp only [decide_eq_true_eq, List.any_eq_true, List.all_eq_true, List.isEmpty_iff,
    not_or, List.mem_map, List.map_eq_nil_iff, List.mem_filter]
  constructor
  · rintro ⟨hne, hnall⟩
    push_neg at hnall
    obtain ⟨c, ⟨l, hl, rfl⟩, hcne⟩ := hnall
    exact ⟨l, hl, hcne⟩
  · rintro ⟨l, hl, hcne⟩
    refine ⟨fun hnil => ?_, fun hall => hcne (hall _ ⟨l, hl, rfl⟩)⟩
    rw [List.filter_eq_nil_iff] at hnil
    simp only [Bool.not_eq_true, decide_eq_true_eq, List.isEmpty_iff, decide_eq_false_iff_not,
      not_not] at hnil
    exact hl.2 (hnil l hl.1)

/-- Claim C1: for every input file with at least one line among the first
250, the sniffer discards exactly the candidates whose occurrence count is
zero on every sampled non-empty line, scores every survivor as
`average_count * (0.7 + 0.3 * consistency_ratio)`, and selects the
candidate with the highest score, ties resolved in favor of the earliest
candidate in the fixed order `,` `;` tab `|`, defaulting to `,` when no
candidate survives. -/
theorem delimiter_selection_claim (fileLines : List RStr)
    (h : fileLines.take 250 ≠ []) : delimiterClaimHolds fileLines := by
  have hdel : (detect_csv_format fileLines).delimiter =
      pickFirstMax (scoredCandidates (fileLines.take 250)) := by
    unfold detect_csv_format
    cases hc : (fileLines.take 250).isEmpty with
    | true =>
      rw [List.isEmpty_iff] at hc
      exact absurd hc h
    | false => simp [hc]
  unfold delimiterClaimHolds
  rw [hdel]
  constructor
  · intro hs
    have hsc : scoredCandidates (fileLines.take 250) = [] := by
      unfold scoredCandidates
      rw [codeSurvivors_eq_surviving, hs, List.map_nil]
    rw [hsc]
    rfl
  · intro hs
    obtain ⟨d0, rest, hsurv⟩ := List.exists_cons_of_ne_nil hs
    have hscored : scoredCandidates (fileLines.take 250) =
        (fun d => (d, delimScore d (fileLines.take 250))) d0 ::
          rest.map (fun d => (d, delimScore d (fileLines.take 250))) := by
      unfold scoredCandidates
      rw [codeSurvivors_eq_surviving, hsurv, List.map_cons]
    obtain ⟨pre, post, hsplit, hpre, hall⟩ :=
      foldl_betterOf_spec (rest.map (fun d => (d, delimScore d (fileLines.take 250))))
        ((fun d => (d, delimScore d (fileLines.take 250))) d0)
    have hpick : pickFirstMax (scoredCandidates (fileLines.take 250)) =
        ((rest.map (fun d => (d, delimScore d (fileLines.take 250)))).foldl betterOf
          ((fun d => (d, delimScore d (fileLines.take 250))) d0)).1 := by
      rw [hscored]
      rfl
    have hsplit' : (survivingDelims (fileLines.take 250)).map
        (fun d => (d, delimScore d (fileLines.take 250))) =
        pre ++ ((rest.map (fun d => (d, delimScore d (fileLines.take 250)))).foldl betterOf
          ((fun d => (d, delimScore d (fileLines.take 250))) d0)) :: post := by
      rw [hsurv, List.map_cons]
      exact hsplit
    obtain ⟨t1, a, t2, hl, hm1, hfa, hm2⟩ :=
      map_eq_append_cons (fun d => (d, delimScore d (fileLines.take 250)))
        (survivingDelims (fileLines.take 250)) pre _ post hsplit'
    refine ⟨t1, t2, ?_, ?_, ?_⟩
    · rw [hpick, ← hfa]
      exact hl
    · intro e he
      have hmem : (fun d => (d, delimScore d (fileLines.take 250))) e ∈ pre := by
        rw [← hm1]
        exact List.mem_map_of_mem _ he
      have hlt := hpre _ hmem
      rw [← hfa] at hlt
      rw [hpick, ← hfa]
      exact hlt
    · intro e he
      have hmem : (fun d => (d, delimScore d (fileLines.take 250))) e ∈
          ((fun d => (d, delimScore d (fileLines.take 250))) d0) ::
            rest.map (fun d => (d, delimScore d (fileLines.take 250))) := by
        rw [hsurv] at he
        rcases List.mem_cons.mp he with he' | he'
        · rw [he']
          exact List.mem_cons_self _ _
        · exact List.mem_cons_of_mem _ (List.mem_map_of_mem _ he')
      have hle := hall _ hmem
      rw [← hfa] at hle
      rw [hpick, ← hfa]
      exact hle

/-- Witness for claim C1 at the one-line input `a;b`. -/
theorem delimiter_selection_claim_w :
    ([['a', ';', 'b']] : List RStr).take 250 ≠ [] ∧
    delimiterClaimHolds [['a', ';', 'b']] :=
  ⟨by decide, delimiter_selection_claim [['a', ';', 'b']] (by decide)⟩

lemma mapInsert_fresh (m : List (RStr × Value)) (k : RStr) (v : Value)
    (h : k ∉ m.map Prod.fst) : mapInsert m k v = m ++ [(k, v)] := by
  have hnot : ¬ (m.any (fun p => decide (p.1 = k)) = true) := by
    intro hc
    rw [List.any_eq_true] at hc
    obtain ⟨p, hp, hpk⟩ := hc
    rw [decide_eq_true_eq] at hpk
    have hmem : p.1 ∈ m.map Prod.fst := List.mem_map_of_mem Prod.fst hp
    rw [hpk] at hmem
    exact h hmem
  unfold mapInsert
  rw [if_neg hnot]

lemma rowPairs_keys (headers : List RStr) (noConv : Bool) (sf : List RStr) :
    ∀ (record : List RStr) (i : Nat),
      (rowPairs headers noConv sf record i).map Prod.fst = rowKeys headers i record.length
  | [], _ => rfl
  | f :: rest, i => by
    show headerNameAt headers i ::
        (rowPairs headers noConv sf rest (i + 1)).map Prod.fst =
      rowKeys headers i (rest.length + 1)
    rw [rowPairs_keys headers noConv sf rest (i + 1)]
    rfl

lemma recordToJsonAux_append (headers : List RStr) (noConv : Bool) (sf : List RStr) :
    ∀ (record : List RStr) (i : Nat) (m : List (RStr × Value)),
      (∀ k ∈ m.map Prod.fst, k ∉ rowKeys headers i record.length) →
      (rowKeys headers i record.length).Nodup →
      recordToJsonAux headers noConv sf record i m =
        m ++ rowPairs headers noConv sf record i
  | [], _, m, _, _ => by
    show m = m ++ []
    rw [List.append_nil]
  | f :: rest, i, m, hfresh, hnd => by
    have hkeys1 : rowKeys headers i (f :: rest).length =
        headerNameAt headers i :: rowKeys headers (i + 1) rest.length := rfl
    rw [hkeys1] at hfresh hnd
    have hk : headerNameAt headers i ∉ m.map Prod.fst := fun hc =>
      hfresh _ hc (List.mem_cons_self _ _)
    have hfresh' : ∀ k ∈ (m ++ [(headerNameAt headers i,
        convert_field_value f (headerNameAt headers i) noConv sf)]).map Prod.fst,
        k ∉ rowKeys headers (i + 1) rest.length := by
      intro k hkm
      rw [List.map_append] at hkm
      rcases List.mem_append.mp hkm with hk1 | hk2
      · exact fun hc => hfresh k hk1 (List.mem_cons_of_mem _ hc)
      · have hkeq : k = headerNameAt headers i := by simpa using hk2
        rw [hkeq]
        exact (List.nodup_cons.mp hnd).1
    have ih := recordToJsonAux_append headers noConv sf rest (i + 1)
      (m ++ [(headerNameAt headers i,
        convert_field_value f (headerNameAt headers i) noConv sf)])
      hfresh' (List.nodup_cons.mp hnd).2
    show recordToJsonAux headers noConv sf rest (i + 1)
        (mapInsert m (headerNameAt headers i)
          (convert_field_value f (headerNameAt headers i) noConv sf)) =
      m ++ rowPairs headers noConv sf (f :: rest) i
    rw [mapInsert_fresh m _ _ hk, ih, List.append_assoc]
    rfl

lemma recordToJson_eq (headers record : List RStr) (noConv : Bool) (sf : List RStr)
    (h : (rowKeys headers 0 record.length).Nodup) :
    recordToJson headers record noConv sf = rowPairs headers noConv sf record 0 := by
  have haux := recordToJsonAux_append headers noConv sf record 0 []
    (by intro k hk; exact absurd hk (List.not_mem_nil k)) h
  show recordToJsonAux headers noConv sf record 0 [] = _
  rw [haux, List.nil_append]

lemma rowKeys_eq_take (headers : List RStr) :
    ∀ (n i : Nat), i + n ≤ headers.length →
      rowKeys headers i n = (headers.drop i).take n
  | 0, i, _ => by
    rw [List.take_zero]
    rfl
  | n + 1, i, h => by
    have hi : i < headers.length := by omega
    have hname : headerNameAt headers i = headers[i] := by
      unfold headerNameAt
      rw [List.get?_eq_getElem?, List.getElem?_eq_getElem hi]
    show headerNameAt headers i :: rowKeys headers (i + 1) n = (headers.drop i).take (n + 1)
    rw [rowKeys_eq_take headers n (i + 1) (by omega), List.drop_eq_getElem_cons hi,
      List.take_succ_cons, hname]

lemma rowPairs_mem (headers : List RStr) (noConv : Bool) (sf : List RStr) :
    ∀ (record : List RStr) (i j : Nat) (fj : RStr),
      record.get? j = some fj →
      (headerNameAt headers (i + j),
        convert_field_value fj (headerNameAt headers (i + j)) noConv sf) ∈
        rowPairs headers noConv sf record i
  | [], _, j, fj, h => by
    exact absurd h (by simp)
  | f :: rest, i, 0, fj, h => by
    have h1 : f = fj := by
      injection h
    show _ ∈ (headerNameAt headers i,
        convert_field_value f (headerNameAt headers i) noConv sf) ::
      rowPairs headers noConv sf rest (i + 1)
    rw [Nat.add_zero, ← h1]
    exact List.mem_cons_self _ _
  | f :: rest, i, j + 1, fj, h => by
    have h' : rest.get? j = some fj := h
    have hmem := rowPairs_mem headers noConv sf rest (i + 1) j fj h'
    have hidx : i + 1 + j = i + (j + 1) := by omega
    rw [hidx] at hmem
    exact List.mem_cons_of_mem _ hmem

/-- Claim C9: every emitted NDJSON object lists its keys in the order of
the header columns — the object's key sequence equals the key sequence
chosen for field indices `0..record length`, which is exactly the header
prefix of that length whenever the record is no longer than the header —
and the row `["1","x"]` under header `["a","b"]` produces exactly the
object with key `a` mapped to the number 1 followed by key `b` mapped to
the string `x`. -/
theorem ndjson_key_order_claim (headers record : List RStr) (noConv : Bool)
    (sf : List RStr) (h : (rowKeys headers 0 record.length).Nodup) :
    ((recordToJson headers record noConv sf).map Prod.fst =
      rowKeys headers 0 record.length) ∧
    (record.length ≤ headers.length →
      (recordToJson headers record noConv sf).map Prod.fst =
        headers.take record.length) ∧
    recordToJson [['a'], ['b']] [['1'], ['x']] false [] =
      [(['a'], Value.intNum 1), (['b'], Value.str ['x'])] := by
  have hkeys : (recordToJson headers record noConv sf).map Prod.fst =
      rowKeys headers 0 record.length := by
    rw [recordToJson_eq headers record noConv sf h, rowPairs_keys]
  refine ⟨hkeys, ?_, by decide⟩
  intro hle
  rw [hkeys, rowKeys_eq_take headers record.length 0 (by omega), List.drop_zero]

/-- Witness for claim C9 at header `["a","b"]` and record `["1","x"]`. -/
theorem ndjson_key_order_claim_w :
    (recordToJson [['a'], ['b']] [['1'], ['x']] false []).map Prod.fst =
      rowKeys [['a'], ['b']] 0 ([['1'], ['x']] : List RStr).length :=
  (ndjson_key_order_claim [['a'], ['b']] [['1'], ['x']] false [] (by decide)).1

/-- Claim C10: the conversion driver tolerates rows whose field count
differs from the header count — it is a total function, for a row with
fewer fields than headers every trailing header key is absent from the
emitted object, and for a row with more fields than headers each extra
field at index `i` is emitted under the synthesized key `column_<i>`. -/
theorem row_mismatch_claim (headers record : List RStr) (noConv : Bool) (sf : List RStr)
    (hh : headers.Nodup) (hk : (rowKeys headers 0 record.length).Nodup) :
    (∀ hd ∈ headers.drop record.length, ∀ v,
      (hd, v) ∉ recordToJson headers record noConv sf) ∧
    (∀ i fi, headers.length ≤ i → record.get? i = some fi →
      (columnKey i, convert_field_value fi (columnKey i) noConv sf) ∈
        recordToJson headers record noConv sf) := by
  constructor
  · intro hd hmem v hin
    have hlen : record.length ≤ headers.length := by
      by_contra hgt
      rw [List.drop_eq_nil_of_le (by omega)] at hmem
      exact absurd hmem (List.not_mem_nil hd)
    have hkey : hd ∈ (recordToJson headers record noConv sf).map Prod.fst :=
      List.mem_map_of_mem Prod.fst hin
    rw [recordToJson_eq headers record noConv sf hk, rowPairs_keys,
      rowKeys_eq_take headers record.length 0 (by omega), List.drop_zero] at hkey
    have hnd := hh
    rw [← List.take_append_drop record.length headers] at hnd
    exact (List.disjoint_of_nodup_append hnd) hkey hmem
  · intro i fi hge hget
    have hmem := rowPairs_mem headers noConv sf record 0 i fi hget
    rw [Nat.zero_add] at hmem
    have hcol : headerNameAt headers i = columnKey i := by
      unfold headerNameAt
      rw [List.get?_eq_getElem?, List.getElem?_eq_none (by omega)]
    rw [hcol] at hmem
    rw [recordToJson_eq headers record noConv sf hk]
    exact hmem

/-- Witness for claim C10 at header `["a"]` and the longer record
`["1","2"]`: the extra field `2` at index 1 appears under `column_1`. -/
theorem row_mismatch_claim_w :
    (columnKey 1, convert_field_value ['2'] (columnKey 1) false []) ∈
      recordToJson [['a']] [['1'], ['2']] false [] :=
  (row_mismatch_claim [['a']] [['1'], ['2']] false [] (by decide) (by decide)).2
    1 ['2'] (by decide) rfl

end CsvConv
